import Mathlib

/-!
Shallow embedding of `src/random_choices/random_choices.py`.

Python floats are modelled by exact rationals (`ℚ`), the injected random
source `rng : Callable[..., float]` by a stream `ℕ → ℚ` giving the value of
the i-th call, Python list indexing (including negative indices) by `pyGet`,
`del list[i]` by `pyDel`, and a raised exception by `none` / `Except.error`.
The `cached_property` mechanism of `Randomizer` is modelled explicitly by a
`Cache` record threaded through the accessors; the sampling algorithms are
stated over the population value directly, which coincides with the cached
view whenever the caches are coherent.
-/

namespace RandomChoices

/-- Python `WeightedChoice` dataclass: a `return_value` with a `weight`. -/
structure WeightedChoice (α : Type) where
  return_value : α
  weight : ℚ
deriving DecidableEq

/-- The failure raised by `WeightedChoice.__post_init__` when the weight is
not positive (the spec calls it `InvalidWeightError`); it carries the
assertion message. -/
structure InvalidWeightError where
  message : String
deriving DecidableEq

/-- The error value produced by the `assert` in `__post_init__`. -/
def invalidWeight : InvalidWeightError :=
  ⟨"Weight should be greater than 0.0"⟩

/-- Validated construction of a `WeightedChoice`: the dataclass `__init__`
stores the fields and `__post_init__` asserts `weight > 0.0`. -/
def mkWeightedChoice {α : Type} (v : α) (w : ℚ) :
    Except InvalidWeightError (WeightedChoice α) :=
  if 0 < w then Except.ok ⟨v, w⟩ else Except.error invalidWeight

/-- Python `UniformChoice.__init__`: sets `return_value` and `weight = 1`
directly, with no validation. -/
def UniformChoice {α : Type} (v : α) : WeightedChoice α := ⟨v, 1⟩

/-! Derived views of a population, as the pure functions the `cached_property`
bodies compute. -/

/-- `Randomizer.weights`: `[choice.weight for choice in self.population]`. -/
def weights {α : Type} (pop : List (WeightedChoice α)) : List ℚ :=
  pop.map (fun c => c.weight)

/-- `Randomizer.return_values`:
`[choice.return_value for choice in self.population]`. -/
def return_values {α : Type} (pop : List (WeightedChoice α)) : List α :=
  pop.map (fun c => c.return_value)

/-- Body of `Randomizer.is_uniform` as a function of the weights list:
true when the list has fewer than 2 entries, else all entries equal the
first. -/
def uniformOf (w : List ℚ) : Bool :=
  match w with
  | [] => true
  | x :: xs => xs.all (fun e => e == x)

/-- `Randomizer.is_uniform`. -/
def is_uniform {α : Type} (pop : List (WeightedChoice α)) : Bool :=
  uniformOf (weights pop)

/-- Python `itertools.accumulate` with a running sum starting at `acc`. -/
def accumulateFrom (acc : ℚ) : List ℚ → List ℚ
  | [] => []
  | x :: xs => (acc + x) :: accumulateFrom (acc + x) xs

/-- Python `list(accumulate(l))`. -/
def accumulate (l : List ℚ) : List ℚ := accumulateFrom 0 l

/-- `Randomizer.cumulative_weights`: `list(accumulate(self.weights))`. -/
def cumulative_weights {α : Type} (pop : List (WeightedChoice α)) : List ℚ :=
  accumulate (weights pop)

/-- `Randomizer.total_weight`: `float(sum(self.weights))`. -/
def total_weight {α : Type} (pop : List (WeightedChoice α)) : ℚ :=
  (weights pop).sum

/-- `Randomizer.is_empty`: `self.total_weight <= 0.0`. -/
def is_empty {α : Type} (pop : List (WeightedChoice α)) : Bool :=
  decide (total_weight pop ≤ 0)

/-- `Randomizer.normalized_weights`:
`list(map(lambda x: x / self.total_weight, self.weights))`. -/
def normalized_weights {α : Type} (pop : List (WeightedChoice α)) : List ℚ :=
  (weights pop).map (fun x => x / total_weight pop)

/-- `Randomizer.normalized_cumulative_weights`:
`list(accumulate(self.normalized_weights))`. -/
def normalized_cumulative_weights {α : Type} (pop : List (WeightedChoice α)) :
    List ℚ :=
  accumulate (normalized_weights pop)

/-! Python list primitives. -/

/-- Python `l[i]` for an `int` index: a negative index counts from the end;
an out-of-range access raises `IndexError` (modelled by `none`). -/
def pyGet {α : Type} (l : List α) (i : ℤ) : Option α :=
  let j : ℤ := if i < 0 then i + l.length else i
  if 0 ≤ j then l.get? j.toNat else none

/-- Python `del l[i]`: removes the element at (possibly negative) index `i`,
raising `IndexError` (modelled by `none`) when out of range. -/
def pyDel {α : Type} (l : List α) (i : ℤ) : Option (List α) :=
  let j : ℤ := if i < 0 then i + l.length else i
  if 0 ≤ j ∧ j < l.length then some (l.eraseIdx j.toNat) else none

/-! The linear scan of `pick_without_replacement`:
`choices_i = -1; while pick_random > 0.0: choices_i += 1; pick_random -= w[choices_i]`. -/

/-- One pass of the while loop body, entered with `target > 0`: `i` is the
index about to be used; running past the end of the weights raises
`IndexError` (`none`). -/
def scanGo : List ℚ → ℚ → ℕ → Option ℤ
  | [], _, _ => none
  | w :: ws, target, i =>
      if target - w ≤ 0 then some (i : ℤ) else scanGo ws (target - w) (i + 1)

/-- The scan as a whole: when the target is already non-positive the loop
body never runs and the index stays `-1`. -/
def scanIdx (wl : List ℚ) (target : ℚ) : Option ℤ :=
  if target ≤ 0 then some (-1) else scanGo wl target 0

/-- One draw of `pick_without_replacement`'s loop after the emptiness check:
recompute the working weights, scan with target `t_w * r`, read the picked
choice and delete it from the working list. -/
def draw_step {α : Type} (choices : List (WeightedChoice α)) (r : ℚ) :
    Option (α × List (WeightedChoice α)) :=
  let w := choices.map (fun c => c.weight)
  match scanIdx w (w.sum * r) with
  | none => none
  | some i =>
    match pyGet choices i, pyDel choices i with
    | some c, some choices' => some (c.return_value, choices')
    | _, _ => none

/-- The `for _ in repeat(None, k)` loop of `pick_without_replacement`:
`fuel` is the remaining iteration count, `j` the index of the next random
draw, and it stops early when the working total weight is non-positive. -/
def pwrLoop {α : Type} (rng : ℕ → ℚ) :
    ℕ → ℕ → List (WeightedChoice α) → List α →
    Option (List α × List (WeightedChoice α))
  | 0, _, choices, results => some (results, choices)
  | fuel + 1, j, choices, results =>
    if (choices.map (fun c => c.weight)).sum ≤ 0 then some (results, choices)
    else
      match draw_step choices (rng j) with
      | none => none
      | some (v, choices') => pwrLoop rng fuel (j + 1) choices' (results ++ [v])

/-- `Randomizer.pick_without_replacement(k, replenish)`: returns the picked
values together with the sampler's stored population after the call (the
working copy is committed through the population setter only when
`replenish` is false). -/
def pick_without_replacement {α : Type} (pop : List (WeightedChoice α))
    (rng : ℕ → ℚ) (k : ℕ) (replenish : Bool) :
    Option (List α × List (WeightedChoice α)) :=
  if is_empty pop then some ([], pop)
  else
    match pwrLoop rng k 0 pop [] with
    | none => none
    | some (results, choices) =>
        some (results, if replenish then pop else choices)

/-! The with-replacement sampler. -/

/-- Python `bisect.bisect` (i.e. `bisect_right`) restricted to `[lo, hi)`,
with fuel driving the `while lo < hi` loop; `hi - lo` fuel always suffices. -/
def bisectAux (a : List ℚ) (x : ℚ) : ℕ → ℕ → ℕ → ℕ
  | 0, lo, _ => lo
  | fuel + 1, lo, hi =>
    if lo < hi then
      let mid := (lo + hi) / 2
      if x < a.getD mid 0 then bisectAux a x fuel lo mid
      else bisectAux a x fuel (mid + 1) hi
    else lo

/-- Python `bisect.bisect(a, x, lo, hi)`. -/
def bisect (a : List ℚ) (x : ℚ) (lo hi : ℕ) : ℕ :=
  bisectAux a x (hi - lo) lo hi

/-- Evaluation of one Python list comprehension producing an optional value
per index, failing as a whole when any element fails. -/
def pickList {α : Type} (f : ℕ → Option α) : List ℕ → Option (List α)
  | [] => some []
  | j :: js =>
    match f j, pickList f js with
    | some v, some vs => some (v :: vs)
    | _, _ => none

/-- `Randomizer.pick_with_replacement(k)`: empty check, then the uniform
fast path (`floor(rng() * len(population))`) or the weighted path
(`bisect(normalized_cumulative_weights, rng(), 0, len(population) - 1)`). -/
def pick_with_replacement {α : Type} (pop : List (WeightedChoice α))
    (rng : ℕ → ℚ) (k : ℕ) : Option (List α) :=
  if is_empty pop then some []
  else if is_uniform pop then
    pickList (fun j => pyGet (return_values pop) ⌊rng j * (pop.length : ℚ)⌋)
      (List.range k)
  else
    pickList
      (fun j =>
        pyGet (return_values pop)
          ((bisect (normalized_cumulative_weights pop) (rng j) 0
              (pop.length - 1) : ℕ) : ℤ))
      (List.range k)

/-! The `cached_property` mechanism of `Randomizer`, made explicit: one
optional slot per cached property.  `_delete_cached_properties` resets every
slot; each accessor returns the slot when set and otherwise computes the
property body (reading its dependencies through their own accessors) and
stores it. -/

/-- One optional slot per `cached_property` of `Randomizer`. -/
structure Cache (α : Type) where
  weights : Option (List ℚ)
  return_values : Option (List α)
  is_uniform : Option Bool
  cumulative_weights : Option (List ℚ)
  total_weight : Option ℚ
  normalized_weights : Option (List ℚ)
  normalized_cumulative_weights : Option (List ℚ)

/-- The state after `_delete_cached_properties`: every slot unset. -/
def clearedCache (α : Type) : Cache α := ⟨none, none, none, none, none, none, none⟩

/-- The `Randomizer` instance state: the stored population and the cache
slots of its `cached_property` descriptors. -/
structure Randomizer (α : Type) where
  population : List (WeightedChoice α)
  cache : Cache α

/-- The `population` setter: `self._delete_cached_properties()` then
`self._population = other`. -/
def Randomizer.setPopulation {α : Type} (_r : Randomizer α)
    (other : List (WeightedChoice α)) : Randomizer α :=
  ⟨other, clearedCache α⟩

/-- Accessor for the cached `weights` property. -/
def Randomizer.cachedWeights {α : Type} (r : Randomizer α) :
    List ℚ × Randomizer α :=
  match r.cache.weights with
  | some v => (v, r)
  | none =>
    let v := weights r.population
    (v, ⟨r.population,
      ⟨some v, r.cache.return_values, r.cache.is_uniform,
        r.cache.cumulative_weights, r.cache.total_weight,
        r.cache.normalized_weights, r.cache.normalized_cumulative_weights⟩⟩)

/-- Accessor for the cached `return_values` property. -/
def Randomizer.cachedReturnValues {α : Type} (r : Randomizer α) :
    List α × Randomizer α :=
  match r.cache.return_values with
  | some v => (v, r)
  | none =>
    let v := return_values r.population
    (v, ⟨r.population,
      ⟨r.cache.weights, some v, r.cache.is_uniform,
        r.cache.cumulative_weights, r.cache.total_weight,
        r.cache.normalized_weights, r.cache.normalized_cumulative_weights⟩⟩)

/-- Accessor for the cached `is_uniform` property (its body reads
`self.weights`). -/
def Randomizer.cachedIsUniform {α : Type} (r : Randomizer α) :
    Bool × Randomizer α :=
  match r.cache.is_uniform with
  | some v => (v, r)
  | none =>
    let p := r.cachedWeights
    let v := uniformOf p.1
    (v, ⟨p.2.population,
      ⟨p.2.cache.weights, p.2.cache.return_values, some v,
        p.2.cache.cumulative_weights, p.2.cache.total_weight,
        p.2.cache.normalized_weights, p.2.cache.normalized_cumulative_weights⟩⟩)

/-- Accessor for the cached `cumulative_weights` property (its body reads
`self.weights`). -/
def Randomizer.cachedCumulativeWeights {α : Type} (r : Randomizer α) :
    List ℚ × Randomizer α :=
  match r.cache.cumulative_weights with
  | some v => (v, r)
  | none =>
    let p := r.cachedWeights
    let v := accumulate p.1
    (v, ⟨p.2.population,
      ⟨p.2.cache.weights, p.2.cache.return_values, p.2.cache.is_uniform,
        some v, p.2.cache.total_weight,
        p.2.cache.normalized_weights, p.2.cache.normalized_cumulative_weights⟩⟩)

/-- Accessor for the cached `total_weight` property (its body reads
`self.weights`). -/
def Randomizer.cachedTotalWeight {α : Type} (r : Randomizer α) :
    ℚ × Randomizer α :=
  match r.cache.total_weight with
  | some v => (v, r)
  | none =>
    let p := r.cachedWeights
    let v := p.1.sum
    (v, ⟨p.2.population,
      ⟨p.2.cache.weights, p.2.cache.return_values, p.2.cache.is_uniform,
        p.2.cache.cumulative_weights, some v,
        p.2.cache.normalized_weights, p.2.cache.normalized_cumulative_weights⟩⟩)

/-- Accessor for the cached `normalized_weights` property (its body reads
`self.weights` and `self.total_weight`). -/
def Randomizer.cachedNormalizedWeights {α : Type} (r : Randomizer α) :
    List ℚ × Randomizer α :=
  match r.cache.normalized_weights with
  | some v => (v, r)
  | none =>
    let p := r.cachedWeights
    let q := p.2.cachedTotalWeight
    let v := p.1.map (fun x => x / q.1)
    (v, ⟨q.2.population,
      ⟨q.2.cache.weights, q.2.cache.return_values, q.2.cache.is_uniform,
        q.2.cache.cumulative_weights, q.2.cache.total_weight,
        some v, q.2.cache.normalized_cumulative_weights⟩⟩)

/-- Accessor for the cached `normalized_cumulative_weights` property (its
body reads `self.normalized_weights`). -/
def Randomizer.cachedNormalizedCumulativeWeights {α : Type}
    (r : Randomizer α) : List ℚ × Randomizer α :=
  match r.cache.normalized_cumulative_weights with
  | some v => (v, r)
  | none =>
    let p := r.cachedNormalizedWeights
    let v := accumulate p.1
    (v, ⟨p.2.population,
      ⟨p.2.cache.weights, p.2.cache.return_values, p.2.cache.is_uniform,
        p.2.cache.cumulative_weights, p.2.cache.total_weight,
        p.2.cache.normalized_weights, some v⟩⟩)

/-! Helper lemmas. -/

/-- A population of positive weights has positive total weight once it is
non-empty. -/
lemma total_weight_pos {α : Type} (pop : List (WeightedChoice α))
    (hpos : ∀ c ∈ pop, 0 < c.weight) (hne : pop ≠ []) :
    0 < total_weight pop := by
  apply List.sum_pos
  · intro a ha
    rcases List.mem_map.1 ha with ⟨c, hc, rfl⟩
    exact hpos c hc
  · simpa [weights] using hne

/-- Reading a Python list at a non-negative in-range index. -/
lemma pyGet_nat {α : Type} (l : List α) (n : ℕ) :
    pyGet l (n : ℤ) = l.get? n := by
  have h1 : ¬ ((n : ℤ) < 0) := by omega
  have h2 : (0 : ℤ) ≤ (n : ℤ) := by omega
  simp [pyGet, h1, h2]

/-- Reading a Python list at index `-1` yields the last element. -/
lemma pyGet_neg_one {α : Type} (l : List α) (h : l ≠ []) :
    pyGet l (-1) = some (l.getLast h) := by
  have hlen : 1 ≤ l.length := List.length_pos.2 h
  have h0 : (0 : ℤ) ≤ -1 + l.length := by omega
  have htn : ((-1 : ℤ) + l.length).toNat = l.length - 1 := by omega
  simp only [pyGet, if_pos (by omega : (-1 : ℤ) < 0), if_pos h0, htn]
  rw [List.getLast_eq_getElem]
  exact List.get?_eq_get (by omega)

/-- Deleting from a Python list at a non-negative in-range index. -/
lemma pyDel_nat {α : Type} (l : List α) (n : ℕ) (h : n < l.length) :
    pyDel l (n : ℤ) = some (l.eraseIdx n) := by
  have h1 : ¬ ((n : ℤ) < 0) := by omega
  have h2 : (0 : ℤ) ≤ (n : ℤ) ∧ (n : ℤ) < l.length := by omega
  simp [pyDel, h1, h2]

/-- Deleting at index `-1` removes the last element. -/
lemma pyDel_neg_one {α : Type} (l : List α) (h : l ≠ []) :
    pyDel l (-1) = some l.dropLast := by
  have hlen : 1 ≤ l.length := List.length_pos.2 h
  have h0 : (0 : ℤ) ≤ -1 + l.length ∧ (-1 : ℤ) + l.length < l.length := by omega
  have htn : ((-1 : ℤ) + l.length).toNat = l.length - 1 := by omega
  simp only [pyDel, if_pos (by omega : (-1 : ℤ) < 0), if_pos h0, htn]
  rw [← List.dropLast_eq_eraseIdx (by omega)]

/-- Putting the element at index `i` back in front of `eraseIdx i` is a
permutation of the original list. -/
lemma cons_eraseIdx_perm {α : Type} :
    ∀ (l : List α) (i : ℕ) (h : i < l.length),
      List.Perm (l.get ⟨i, h⟩ :: l.eraseIdx i) l := by
  intro l
  induction l with
  | nil => intro i h; simp at h
  | cons a t ih =>
    intro i h
    cases i with
    | zero => simp [List.eraseIdx]
    | succ i =>
      have hi : i < t.length := by simpa using h
      have hswap :
          List.Perm (t.get ⟨i, hi⟩ :: a :: t.eraseIdx i)
            (a :: (t.get ⟨i, hi⟩ :: t.eraseIdx i)) :=
        List.Perm.swap a _ _
      have := (ih i hi).cons a
      simpa [List.eraseIdx] using hswap.trans this

/-- The while loop of the scan, entered with a positive target that the
remaining weights can absorb, stops at the first index whose prefix sum
reaches the target. -/
lemma scanGo_spec :
    ∀ (wl : List ℚ) (target : ℚ) (i0 : ℕ),
      0 < target → target ≤ wl.sum →
      ∃ j : ℕ, j < wl.length ∧ scanGo wl target i0 = some ((i0 + j : ℕ) : ℤ) ∧
        target ≤ (wl.take (j + 1)).sum ∧
        ∀ m : ℕ, m < j → (wl.take (m + 1)).sum < target := by
  intro wl
  induction wl with
  | nil =>
    intro target i0 hpos hle
    simp only [List.sum_nil] at hle
    exact absurd (lt_of_lt_of_le hpos hle) (lt_irrefl 0)
  | cons w ws ih =>
    intro target i0 hpos hle
    by_cases hstop : target - w ≤ 0
    · refine ⟨0, by simp, ?_, ?_, ?_⟩
      · simp [scanGo, hstop]
      · simpa using by linarith
      · intro m hm; exact absurd hm (Nat.not_lt_zero m)
    · have hpos' : 0 < target - w := by linarith
      have hle' : target - w ≤ ws.sum := by
        simp only [List.sum_cons] at hle; linarith
      obtain ⟨j', hj'lt, hj'eq, hj'le, hj'str⟩ := ih (target - w) (i0 + 1) hpos' hle'
      refine ⟨j' + 1, by simp; omega, ?_, ?_, ?_⟩
      · have : ((i0 + 1 + j' : ℕ) : ℤ) = ((i0 + (j' + 1) : ℕ) : ℤ) := by push_cast; ring
        simp only [scanGo, if_neg hstop]
        rw [hj'eq, this]
      · simp only [List.take_succ_cons, List.sum_cons]
        linarith
      · intro m hm
        cases m with
        | zero => simp; linarith
        | succ m' =>
          have hm' : m' < j' := by omega
          have := hj'str m' hm'
          simp only [List.take_succ_cons, List.sum_cons]
          linarith

/-- One draw of the without-replacement loop on a non-empty working list of
positive weights and a random value in `[0, 1)` succeeds, and the picked
choice together with the remaining working list is a permutation of the
working list before the draw. -/
lemma draw_step_spec {α : Type} (choices : List (WeightedChoice α)) (r : ℚ)
    (hne : choices ≠ []) (hpos : ∀ c ∈ choices, 0 < c.weight)
    (_hr0 : 0 ≤ r) (hr1 : r < 1) :
    ∃ (c : WeightedChoice α) (rest : List (WeightedChoice α)),
      draw_step choices r = some (c.return_value, rest) ∧
      List.Perm (c :: rest) choices := by
  have hsum : 0 < (choices.map (fun c => c.weight)).sum :=
    total_weight_pos choices hpos hne
  by_cases htarget : (choices.map (fun c => c.weight)).sum * r ≤ 0
  · -- target already non-positive: scan index stays -1, the last entry is picked
    refine ⟨choices.getLast hne, choices.dropLast, ?_, ?_⟩
    · simp only [draw_step, scanIdx, if_pos htarget,
        pyGet_neg_one choices hne, pyDel_neg_one choices hne]
    · have hlast := List.dropLast_append_getLast hne
      calc List.Perm (choices.getLast hne :: choices.dropLast)
            (choices.dropLast ++ [choices.getLast hne]) :=
            (List.perm_append_singleton _ _).symm
        _ = choices := hlast
  · have htpos : 0 < (choices.map (fun c => c.weight)).sum * r := lt_of_not_le htarget
    have htle : (choices.map (fun c => c.weight)).sum * r ≤
        (choices.map (fun c => c.weight)).sum := by
      nlinarith
    obtain ⟨j, hjlt, hjeq, _, _⟩ :=
      scanGo_spec (choices.map (fun c => c.weight))
        ((choices.map (fun c => c.weight)).sum * r) 0 htpos htle
    have hjlt' : j < choices.length := by simpa using hjlt
    refine ⟨choices.get ⟨j, hjlt'⟩, choices.eraseIdx j, ?_, cons_eraseIdx_perm choices j hjlt'⟩
    have hget : pyGet choices (j : ℤ) = some (choices.get ⟨j, hjlt'⟩) := by
      rw [pyGet_nat]; exact List.get?_eq_get hjlt'
    have hdel : pyDel choices (j : ℤ) = some (choices.eraseIdx j) :=
      pyDel_nat choices j hjlt'
    have hzero : ((0 + j : ℕ) : ℤ) = (j : ℤ) := by omega
    simp only [draw_step, scanIdx, if_neg htarget, hjeq, hzero, hget, hdel]

/-- The without-replacement loop, run with enough fuel on a working list of
positive weights and draws in `[0, 1)`, empties the working list and appends
a permutation of its values to the accumulator. -/
lemma pwrLoop_spec {α : Type} (rng : ℕ → ℚ)
    (hr : ∀ m, 0 ≤ rng m ∧ rng m < 1) :
    ∀ (fuel : ℕ) (choices : List (WeightedChoice α)) (j : ℕ) (acc : List α),
      (∀ c ∈ choices, 0 < c.weight) → choices.length ≤ fuel →
      ∃ results, pwrLoop rng fuel j choices acc = some (results, []) ∧
        List.Perm results (acc ++ choices.map (fun c => c.return_value)) := by
  intro fuel
  induction fuel with
  | zero =>
    intro choices j acc _ hlen
    have : choices = [] := List.length_eq_zero.1 (Nat.le_zero.1 hlen)
    subst this
    exact ⟨acc, rfl, by simp⟩
  | succ fuel ih =>
    intro choices j acc hpos hlen
    by_cases hne : choices = []
    · subst hne
      refine ⟨acc, ?_, by simp⟩
      simp [pwrLoop]
    · have hsum : 0 < (choices.map (fun c => c.weight)).sum :=
        total_weight_pos choices hpos hne
      obtain ⟨c, rest, hstep, hperm⟩ :=
        draw_step_spec choices (rng j) hne hpos (hr j).1 (hr j).2
      have hrestpos : ∀ x ∈ rest, 0 < x.weight := by
        intro x hx
        exact hpos x (hperm.mem_iff.1 (List.mem_cons_of_mem c hx))
      have hrestlen : rest.length ≤ fuel := by
        have := hperm.length_eq
        simp only [List.length_cons] at this
        omega
      obtain ⟨results, hloop, hperm2⟩ := ih rest (j + 1) (acc ++ [c.return_value]) hrestpos hrestlen
      refine ⟨results, ?_, ?_⟩
      · simp only [pwrLoop, if_neg (not_le.2 hsum), hstep, hloop]
      · have hmap : List.Perm ((c :: rest).map (fun c => c.return_value))
            (choices.map (fun c => c.return_value)) := hperm.map _
        have : List.Perm results
            (acc ++ (c :: rest).map (fun c => c.return_value)) := by
          simpa using hperm2
        exact this.trans (List.Perm.append_left acc hmap)

/-- A running sum over a non-empty list ends at the start value plus the
list's total. -/
lemma accumulateFrom_getLast? :
    ∀ (l : List ℚ) (a : ℚ), l ≠ [] →
      (accumulateFrom a l).getLast? = some (a + l.sum) := by
  intro l
  induction l with
  | nil => intro a h; exact absurd rfl h
  | cons x xs ih =>
    intro a _
    cases xs with
    | nil => simp [accumulateFrom]
    | cons y ys =>
      have hne : (y :: ys) ≠ [] := by simp
      have := ih (a + x) hne
      simp only [accumulateFrom] at this ⊢
      rw [List.getLast?_cons_cons]
      · rw [this]; simp only [List.sum_cons]; ring_nf
      -- accumulateFrom (a + x) (y :: ys) starts with (a + x + y)

/-- A running sum over non-negative increments is adjacent-wise
non-decreasing. -/
lemma accumulateFrom_chain :
    ∀ (l : List ℚ) (a : ℚ), (∀ x ∈ l, 0 ≤ x) →
      List.Chain' (· ≤ ·) (accumulateFrom a l) := by
  intro l
  induction l with
  | nil => intro a _; simp [accumulateFrom]
  | cons x xs ih =>
    intro a hx
    have hxs : ∀ y ∈ xs, 0 ≤ y := fun y hy => hx y (List.mem_cons_of_mem x hy)
    simp only [accumulateFrom]
    rw [List.chain'_cons']
    refine ⟨?_, ih (a + x) hxs⟩
    intro b hb
    cases xs with
    | nil => simp [accumulateFrom] at hb
    | cons y ys =>
      simp only [accumulateFrom, List.head?_cons, Option.mem_def,
        Option.some.injEq] at hb
      have hy : 0 ≤ y := hx y (by simp)
      linarith [hb ▸ (by linarith : a + x ≤ a + x + y)]

/-- Dividing every element by `t` divides the sum by `t`. -/
lemma sum_map_div (l : List ℚ) (t : ℚ) :
    (l.map (fun x => x / t)).sum = l.sum / t := by
  induction l with
  | nil => simp
  | cons x xs ih => simp [ih, add_div]

/-- The bisection loop never leaves `[lo, hi]`. -/
lemma bisectAux_bounds (a : List ℚ) (x : ℚ) :
    ∀ (fuel lo hi : ℕ), lo ≤ hi →
      lo ≤ bisectAux a x fuel lo hi ∧ bisectAux a x fuel lo hi ≤ hi := by
  intro fuel
  induction fuel with
  | zero => intro lo hi h; exact ⟨le_refl lo, h⟩
  | succ fuel ih =>
    intro lo hi h
    by_cases hlt : lo < hi
    · simp only [bisectAux, if_pos hlt]
      by_cases hcmp : x < a.getD ((lo + hi) / 2) 0
      · simp only [if_pos hcmp]
        have hm : lo ≤ (lo + hi) / 2 := by omega
        have := ih lo ((lo + hi) / 2) hm
        constructor
        · exact this.1
        · exact le_trans this.2 (by omega)
      · simp only [if_neg hcmp]
        have hm : (lo + hi) / 2 + 1 ≤ hi := by omega
        have := ih ((lo + hi) / 2 + 1) hi hm
        constructor
        · exact le_trans (by omega) this.1
        · exact this.2
    · simp only [bisectAux, if_neg hlt]
      exact ⟨le_refl lo, h⟩

/-- A Python list comprehension whose body never raises returns one value
per index. -/
lemma pickList_spec {α : Type} (f : ℕ → Option α) :
    ∀ js : List ℕ, (∀ j ∈ js, (f j).isSome) →
      ∃ l, pickList f js = some l ∧ l.length = js.length ∧
        ∀ (i : ℕ) (h : i < js.length), l.get? i = f (js.get ⟨i, h⟩) := by
  intro js
  induction js with
  | nil => intro _; exact ⟨[], rfl, rfl, fun i h => absurd h (Nat.not_lt_zero i)⟩
  | cons j js ih =>
    intro hall
    obtain ⟨v, hv⟩ := Option.isSome_iff_exists.1 (hall j (by simp))
    obtain ⟨l, hl, hlen, hget⟩ :=
      ih (fun m hm => hall m (List.mem_cons_of_mem j hm))
    refine ⟨v :: l, ?_, by simp [hlen], ?_⟩
    · simp only [pickList, hv, hl]
    · intro i h
      cases i with
      | zero => simpa using hv.symm
      | succ i => simpa using hget i (by simpa using h)

/-- A comprehension with a constant successful body yields a replicated
list. -/
lemma pickList_const {α : Type} (v : α) :
    ∀ js : List ℕ, pickList (fun _ => some v) js = some (List.replicate js.length v) := by
  intro js
  induction js with
  | nil => rfl
  | cons j js ih => simp [pickList, ih, List.replicate_succ]

/-- Comprehensions with pointwise-equal bodies agree. -/
lemma pickList_congr {α : Type} (f g : ℕ → Option α) (h : ∀ j, f j = g j) :
    ∀ js : List ℕ, pickList f js = pickList g js := by
  intro js
  induction js with
  | nil => rfl
  | cons j js ih => simp only [pickList, h j, ih]

/-! Claim theorems. -/

/-- C2: for every value and weight, constructing a `WeightedChoice` with
`weight <= 0.0` fails with the invalid-weight error, and constructing with
`weight > 0.0` succeeds, storing exactly the given value and weight with no
other validation. -/
theorem claim_C2_choice_validation {α : Type} (v : α) (w : ℚ) :
    (w ≤ 0 → mkWeightedChoice v w = Except.error invalidWeight) ∧
    (0 < w → mkWeightedChoice v w = Except.ok ⟨v, w⟩) := by
  constructor
  · intro h
    simp [mkWeightedChoice, not_lt.2 h]
  · intro h
    simp [mkWeightedChoice, h]

theorem claim_C2_choice_validation_witness :
    ((-1 : ℚ) ≤ 0 ∧ mkWeightedChoice (5 : ℕ) (-1) = Except.error invalidWeight) ∧
    ((0 : ℚ) < 2 ∧ mkWeightedChoice (5 : ℕ) 2 = Except.ok ⟨5, 2⟩) :=
  ⟨⟨by norm_num, (claim_C2_choice_validation 5 (-1)).1 (by norm_num)⟩,
   ⟨by norm_num, (claim_C2_choice_validation 5 2).2 (by norm_num)⟩⟩

/-- C4: `pick_without_replacement` with `replenish = true` leaves the
sampler's stored population equal to its state before the call, for every
population, random source and `k`. -/
theorem claim_C4_replenish_frame {α : Type} (pop : List (WeightedChoice α))
    (rng : ℕ → ℚ) (k : ℕ) (out : List α × List (WeightedChoice α))
    (h : pick_without_replacement pop rng k true = some out) :
    out.2 = pop := by
  unfold pick_without_replacement at h
  by_cases he : is_empty pop
  · rw [if_pos he] at h
    cases h
    rfl
  · rw [if_neg he] at h
    cases hloop : pwrLoop rng k 0 pop [] with
    | none => rw [hloop] at h; cases h
    | some p =>
      rw [hloop] at h
      obtain ⟨results, choices⟩ := p
      simp only [if_true] at h
      cases h
      rfl

theorem claim_C4_replenish_frame_witness :
    pick_without_replacement [⟨0, (1 : ℚ)⟩] (fun _ => 1 / 2) 1 true
      = some (([0], [⟨0, (1 : ℚ)⟩]) : List ℕ × List (WeightedChoice ℕ)) ∧
    (([0], [⟨0, (1 : ℚ)⟩]) : List ℕ × List (WeightedChoice ℕ)).2 = [⟨0, (1 : ℚ)⟩] := by
  have heval : pick_without_replacement [⟨0, (1 : ℚ)⟩] (fun _ => 1 / 2) 1 true
      = some (([0], [⟨0, (1 : ℚ)⟩]) : List ℕ × List (WeightedChoice ℕ)) := by
    norm_num [pick_without_replacement, is_empty, total_weight, weights, pwrLoop,
      draw_step, scanIdx, scanGo, pyGet, pyDel]
  exact ⟨heval, claim_C4_replenish_frame [⟨0, (1 : ℚ)⟩] (fun _ => 1 / 2) 1 _ heval⟩

/-- C9: when a draw of `pick_without_replacement` receives the random value
0.0 on a non-empty working population, the scan target `t * 0` is already
non-positive, the scan index stays `-1`, and Python indexing at `-1` makes
the draw select the last entry of the working population. -/
theorem claim_C9_zero_draw_selects_last {α : Type}
    (choices : List (WeightedChoice α)) (h : choices ≠ []) :
    scanIdx (choices.map (fun c => c.weight))
        ((choices.map (fun c => c.weight)).sum * 0) = some (-1) ∧
    (draw_step choices 0).map Prod.fst
      = some ((choices.getLast h).return_value) := by
  constructor
  · simp [scanIdx]
  · simp only [draw_step, scanIdx, mul_zero, if_pos (le_refl (0 : ℚ)),
      pyGet_neg_one choices h, pyDel_neg_one choices h, Option.map_some']

theorem claim_C9_zero_draw_selects_last_witness :
    (([⟨0, (1 : ℚ)⟩, ⟨1, 1⟩] : List (WeightedChoice ℕ)) ≠ []) ∧
    (draw_step ([⟨0, (1 : ℚ)⟩, ⟨1, 1⟩] : List (WeightedChoice ℕ)) 0).map Prod.fst
      = some 1 := by
  refine ⟨by simp, ?_⟩
  have h := (claim_C9_zero_draw_selects_last
    ([⟨0, (1 : ℚ)⟩, ⟨1, 1⟩] : List (WeightedChoice ℕ)) (by simp)).2
  simpa [List.getLast] using h

/-- C5: with population `[(A, 1), (B, 3)]` the normalized cumulative weights
are `[0.25, 1.0]`, and with a random source returning 0.9 a single
with-replacement draw selects `B` (modelled as value `1`). -/
theorem claim_C5_weighted_draw_example :
    normalized_cumulative_weights
        ([⟨0, (1 : ℚ)⟩, ⟨1, 3⟩] : List (WeightedChoice ℕ)) = [1 / 4, 1] ∧
    pick_with_replacement ([⟨0, (1 : ℚ)⟩, ⟨1, 3⟩] : List (WeightedChoice ℕ))
        (fun _ => 9 / 10) 1 = some [1] := by
  constructor
  · norm_num [normalized_cumulative_weights, normalized_weights, total_weight,
      weights, accumulate, accumulateFrom]
  · norm_num [pick_with_replacement, is_empty, total_weight, weights, is_uniform,
      uniformOf, return_values, normalized_cumulative_weights, normalized_weights,
      accumulate, accumulateFrom, bisect, bisectAux, pickList, pyGet,
      List.range_succ]

/-- C7: reassigning the population first clears every cached slot, so every
derived accessor of the sampler afterwards returns the pure function of the
newly installed population, never a stale cached value, whatever was cached
before. -/
theorem claim_C7_reassignment_invalidates_caches {α : Type}
    (r : Randomizer α) (p : List (WeightedChoice α)) :
    ((r.setPopulation p).cachedWeights).1 = weights p ∧
    ((r.setPopulation p).cachedReturnValues).1 = return_values p ∧
    ((r.setPopulation p).cachedIsUniform).1 = is_uniform p ∧
    ((r.setPopulation p).cachedCumulativeWeights).1 = cumulative_weights p ∧
    ((r.setPopulation p).cachedTotalWeight).1 = total_weight p ∧
    ((r.setPopulation p).cachedNormalizedWeights).1 = normalized_weights p ∧
    ((r.setPopulation p).cachedNormalizedCumulativeWeights).1
      = normalized_cumulative_weights p :=
  ⟨rfl, rfl, rfl, rfl, rfl, rfl, rfl⟩

/-- C8: over exact arithmetic, for every non-empty population of positive
weights the normalized weights sum to 1, the last normalized cumulative
weight is 1, and the normalized cumulative weights are monotonically
non-decreasing. -/
theorem claim_C8_normalization {α : Type} (pop : List (WeightedChoice α))
    (hne : pop ≠ []) (hpos : ∀ c ∈ pop, 0 < c.weight) :
    (normalized_weights pop).sum = 1 ∧
    (normalized_cumulative_weights pop).getLast? = some 1 ∧
    List.Chain' (· ≤ ·) (normalized_cumulative_weights pop) := by
  have ht : 0 < total_weight pop := total_weight_pos pop hpos hne
  have hsum : (normalized_weights pop).sum = 1 := by
    unfold normalized_weights
    rw [sum_map_div]
    exact div_self (ne_of_gt ht)
  have hnwne : normalized_weights pop ≠ [] := by
    simp [normalized_weights, weights, hne]
  refine ⟨hsum, ?_, ?_⟩
  · unfold normalized_cumulative_weights accumulate
    rw [accumulateFrom_getLast? _ 0 hnwne, hsum]
    norm_num
  · apply accumulateFrom_chain
    intro x hx
    rcases List.mem_map.1 hx with ⟨w, hw, rfl⟩
    rcases List.mem_map.1 hw with ⟨c, hc, rfl⟩
    exact le_of_lt (div_pos (hpos c hc) ht)

theorem claim_C8_normalization_witness :
    (([⟨0, (1 : ℚ)⟩, ⟨1, 3⟩] : List (WeightedChoice ℕ)) ≠ [] ∧
      (∀ c ∈ ([⟨0, (1 : ℚ)⟩, ⟨1, 3⟩] : List (WeightedChoice ℕ)), 0 < c.weight)) ∧
    (normalized_weights ([⟨0, (1 : ℚ)⟩, ⟨1, 3⟩] : List (WeightedChoice ℕ))).sum = 1 ∧
    (normalized_cumulative_weights
        ([⟨0, (1 : ℚ)⟩, ⟨1, 3⟩] : List (WeightedChoice ℕ))).getLast? = some 1 ∧
    List.Chain' (· ≤ ·)
      (normalized_cumulative_weights
        ([⟨0, (1 : ℚ)⟩, ⟨1, 3⟩] : List (WeightedChoice ℕ))) := by
  have hpos : ∀ c ∈ ([⟨0, (1 : ℚ)⟩, ⟨1, 3⟩] : List (WeightedChoice ℕ)),
      0 < c.weight := by
    intro c hc
    fin_cases hc <;> norm_num
  exact ⟨⟨by simp, hpos⟩,
    claim_C8_normalization ([⟨0, (1 : ℚ)⟩, ⟨1, 3⟩] : List (WeightedChoice ℕ))
      (by simp) hpos⟩

/-- C1 fails as stated: at the concrete working population `[(0,1), (1,1)]`
and draw `r = 0` (which lies in `[0, 1)`), index 0 already satisfies the
prefix-sum condition `prefix >= t * r`, so the claimed first such index is 0
with value 0, yet the draw selects value 1 (the last entry). -/
theorem claim_C1_counterexample :
    total_weight ([⟨0, (1 : ℚ)⟩, ⟨1, 1⟩] : List (WeightedChoice ℕ)) * 0 ≤
      ((weights ([⟨0, (1 : ℚ)⟩, ⟨1, 1⟩] : List (WeightedChoice ℕ))).take (0 + 1)).sum ∧
    (return_values ([⟨0, (1 : ℚ)⟩, ⟨1, 1⟩] : List (WeightedChoice ℕ))).get? 0
      = some 0 ∧
    (draw_step ([⟨0, (1 : ℚ)⟩, ⟨1, 1⟩] : List (WeightedChoice ℕ)) 0).map Prod.fst
      ≠ some 0 := by
  refine ⟨?_, by norm_num [return_values], ?_⟩
  · norm_num [total_weight, weights]
  · norm_num [draw_step, scanIdx, scanGo, pyGet, pyDel]

/-- C1 (amended): for every working population of positive weights and
every draw `r` strictly inside `(0, 1)`, the scan succeeds and selects the
first index whose prefix sum of working weights reaches `t * r`; at `r = 0`
the scan instead selects the last entry. -/
theorem claim_C1_amended_scan_inverse_cdf (wl : List ℚ) (hne : wl ≠ [])
    (hpos : ∀ w ∈ wl, 0 < w) (r : ℚ) (hr0 : 0 < r) (hr1 : r < 1) :
    ∃ j : ℕ, j < wl.length ∧ scanIdx wl (wl.sum * r) = some (j : ℤ) ∧
      wl.sum * r ≤ (wl.take (j + 1)).sum ∧
      ∀ m : ℕ, m < j → (wl.take (m + 1)).sum < wl.sum * r := by
  have hsum : 0 < wl.sum := List.sum_pos wl hpos hne
  have htpos : 0 < wl.sum * r := mul_pos hsum hr0
  have htle : wl.sum * r ≤ wl.sum := by nlinarith
  obtain ⟨j, h1, h2, h3, h4⟩ := scanGo_spec wl (wl.sum * r) 0 htpos htle
  refine ⟨j, h1, ?_, h3, h4⟩
  rw [scanIdx, if_neg (not_le.2 htpos), h2]
  norm_num

theorem claim_C1_amended_scan_inverse_cdf_witness :
    (([(1 : ℚ), 3] : List ℚ) ≠ [] ∧ (∀ w ∈ ([(1 : ℚ), 3] : List ℚ), 0 < w) ∧
      (0 : ℚ) < 1 / 2 ∧ (1 : ℚ) / 2 < 1) ∧
    (∃ j : ℕ, j < ([(1 : ℚ), 3] : List ℚ).length ∧
      scanIdx [(1 : ℚ), 3] (([(1 : ℚ), 3] : List ℚ).sum * (1 / 2)) = some (j : ℤ) ∧
      ([(1 : ℚ), 3] : List ℚ).sum * (1 / 2) ≤ (([(1 : ℚ), 3] : List ℚ).take (j + 1)).sum ∧
      ∀ m : ℕ, m < j → (([(1 : ℚ), 3] : List ℚ).take (m + 1)).sum
        < ([(1 : ℚ), 3] : List ℚ).sum * (1 / 2)) := by
  have hpos : ∀ w ∈ ([(1 : ℚ), 3] : List ℚ), 0 < w := by
    intro w hw
    fin_cases hw <;> norm_num
  exact ⟨⟨by simp, hpos, by norm_num, by norm_num⟩,
    claim_C1_amended_scan_inverse_cdf [(1 : ℚ), 3] (by simp) hpos (1 / 2)
      (by norm_num) (by norm_num)⟩

/-- C3: with every weight positive and `k` at least the population size,
`pick_without_replacement(k, replenish := false)` empties the sampler's
stored population (so `is_empty` holds afterwards) and returns exactly `n`
values, a permutation of the population's values, so no original position is
drawn twice. -/
theorem claim_C3_exhaustive_without_replacement {α : Type}
    (pop : List (WeightedChoice α)) (rng : ℕ → ℚ) (k : ℕ)
    (hpos : ∀ c ∈ pop, 0 < c.weight)
    (hr : ∀ m, 0 ≤ rng m ∧ rng m < 1) (hk : pop.length ≤ k) :
    ∃ results, pick_without_replacement pop rng k false = some (results, []) ∧
      is_empty ([] : List (WeightedChoice α)) = true ∧
      results.length = pop.length ∧
      List.Perm results (pop.map (fun c => c.return_value)) := by
  by_cases hne : pop = []
  · subst hne
    refine ⟨[], ?_, rfl, rfl, List.Perm.refl []⟩
    simp [pick_without_replacement, is_empty, total_weight, weights]
  · have hsum : 0 < total_weight pop := total_weight_pos pop hpos hne
    have hempty : is_empty pop = false := by
      simp only [is_empty, decide_eq_false_iff_not]
      exact not_le.2 hsum
    obtain ⟨results, hloop, hperm⟩ := pwrLoop_spec rng hr k pop 0 [] hpos hk
    refine ⟨results, ?_, rfl, ?_, by simpa using hperm⟩
    · simp only [pick_without_replacement, hempty, Bool.false_eq_true, if_false,
        hloop]
    · have := hperm.length_eq
      simpa using this

theorem claim_C3_exhaustive_without_replacement_witness :
    ((∀ c ∈ ([⟨0, (1 : ℚ)⟩, ⟨1, 2⟩] : List (WeightedChoice ℕ)), 0 < c.weight) ∧
      (∀ m : ℕ, 0 ≤ (fun _ : ℕ => (1 : ℚ) / 2) m ∧ (fun _ : ℕ => (1 : ℚ) / 2) m < 1) ∧
      ([⟨0, (1 : ℚ)⟩, ⟨1, 2⟩] : List (WeightedChoice ℕ)).length ≤ 3) ∧
    (∃ results,
      pick_without_replacement ([⟨0, (1 : ℚ)⟩, ⟨1, 2⟩] : List (WeightedChoice ℕ))
          (fun _ => 1 / 2) 3 false = some (results, []) ∧
      is_empty ([] : List (WeightedChoice ℕ)) = true ∧
      results.length = ([⟨0, (1 : ℚ)⟩, ⟨1, 2⟩] : List (WeightedChoice ℕ)).length ∧
      List.Perm results
        (([⟨0, (1 : ℚ)⟩, ⟨1, 2⟩] : List (WeightedChoice ℕ)).map
          (fun c => c.return_value))) := by
  have hpos : ∀ c ∈ ([⟨0, (1 : ℚ)⟩, ⟨1, 2⟩] : List (WeightedChoice ℕ)),
      0 < c.weight := by
    intro c hc
    fin_cases hc <;> norm_num
  have hrng : ∀ m : ℕ, 0 ≤ (fun _ : ℕ => (1 : ℚ) / 2) m ∧
      (fun _ : ℕ => (1 : ℚ) / 2) m < 1 := by
    intro m
    norm_num
  exact ⟨⟨hpos, hrng, by norm_num⟩,
    claim_C3_exhaustive_without_replacement
      ([⟨0, (1 : ℚ)⟩, ⟨1, 2⟩] : List (WeightedChoice ℕ)) (fun _ => 1 / 2) 3
      hpos hrng (by norm_num)⟩

/-- C10: on a sampler whose population is not empty, and a random source
respecting the `[0, 1)` contract, `pick_with_replacement(k)` returns exactly
`k` values on both the uniform and the weighted path. -/
theorem claim_C10_with_replacement_length {α : Type}
    (pop : List (WeightedChoice α)) (rng : ℕ → ℚ) (k : ℕ)
    (hempty : is_empty pop = false) (hr : ∀ m, 0 ≤ rng m ∧ rng m < 1) :
    ∃ l, pick_with_replacement pop rng k = some l ∧ l.length = k := by
  have hne : pop ≠ [] := by
    intro h
    rw [h] at hempty
    simp [is_empty, total_weight, weights] at hempty
  have hlen : 0 < pop.length := List.length_pos.2 hne
  have hrv : (return_values pop).length = pop.length := by simp [return_values]
  by_cases huni : is_uniform pop = true
  · have hsome : ∀ j ∈ List.range k,
        (pyGet (return_values pop) ⌊rng j * (pop.length : ℚ)⌋).isSome := by
      intro j _
      have h0 : (0 : ℤ) ≤ ⌊rng j * (pop.length : ℚ)⌋ := by
        apply Int.floor_nonneg.2
        exact mul_nonneg (hr j).1 (by positivity)
      have h1 : ⌊rng j * (pop.length : ℚ)⌋ < (pop.length : ℤ) := by
        apply Int.floor_lt.2
        push_cast
        calc rng j * (pop.length : ℚ) < 1 * pop.length := by
              apply mul_lt_mul_of_pos_right (hr j).2
              exact_mod_cast hlen
          _ = pop.length := one_mul _
      rw [← Int.toNat_of_nonneg h0, pyGet_nat]
      have hin : ⌊rng j * (pop.length : ℚ)⌋.toNat < (return_values pop).length := by
        rw [hrv]
        omega
      simp [List.getElem?_eq_getElem hin]
    obtain ⟨l, hl, hlen', _⟩ := pickList_spec _ (List.range k) hsome
    refine ⟨l, ?_, by simpa using hlen'⟩
    simp only [pick_with_replacement, hempty, huni, Bool.false_eq_true, if_false,
      if_true]
    exact hl
  · have huni' : is_uniform pop = false := by
      cases h : is_uniform pop
      · rfl
      · exact absurd h huni
    have hsome : ∀ j ∈ List.range k,
        (pyGet (return_values pop)
          ((bisect (normalized_cumulative_weights pop) (rng j) 0
              (pop.length - 1) : ℕ) : ℤ)).isSome := by
      intro j _
      have hb := bisectAux_bounds (normalized_cumulative_weights pop) (rng j)
        (pop.length - 1 - 0) 0 (pop.length - 1) (Nat.zero_le _)
      have hlt : bisect (normalized_cumulative_weights pop) (rng j) 0
          (pop.length - 1) < pop.length := by
        unfold bisect
        omega
      rw [pyGet_nat]
      have hin : bisect (normalized_cumulative_weights pop) (rng j) 0
          (pop.length - 1) < (return_values pop).length := by
        rw [hrv]
        exact hlt
      simp [List.getElem?_eq_getElem hin]
    obtain ⟨l, hl, hlen', _⟩ := pickList_spec _ (List.range k) hsome
    refine ⟨l, ?_, by simpa using hlen'⟩
    simp only [pick_with_replacement, hempty, huni', Bool.false_eq_true, if_false]
    exact hl

theorem claim_C10_with_replacement_length_witness :
    (is_empty ([⟨0, (1 : ℚ)⟩, ⟨1, 3⟩] : List (WeightedChoice ℕ)) = false ∧
      (∀ m : ℕ, 0 ≤ (fun _ : ℕ => (1 : ℚ) / 2) m ∧ (fun _ : ℕ => (1 : ℚ) / 2) m < 1)) ∧
    (∃ l, pick_with_replacement ([⟨0, (1 : ℚ)⟩, ⟨1, 3⟩] : List (WeightedChoice ℕ))
        (fun _ => 1 / 2) 2 = some l ∧ l.length = 2) := by
  have hempty : is_empty ([⟨0, (1 : ℚ)⟩, ⟨1, 3⟩] : List (WeightedChoice ℕ)) = false := by
    simp [is_empty, total_weight, weights]
    norm_num
  have hrng : ∀ m : ℕ, 0 ≤ (fun _ : ℕ => (1 : ℚ) / 2) m ∧
      (fun _ : ℕ => (1 : ℚ) / 2) m < 1 := by
    intro m
    norm_num
  exact ⟨⟨hempty, hrng⟩,
    claim_C10_with_replacement_length
      ([⟨0, (1 : ℚ)⟩, ⟨1, 3⟩] : List (WeightedChoice ℕ)) (fun _ => 1 / 2) 2
      hempty hrng⟩

/-- C6: on the uniform fast path each of the `k` draws selects the value at
index `floor(r * population_size)`; in particular with the population
`[(A, 1), (B, 1), (C, 1)]` (modelled as values `0, 1, 2`) and a random
source fixed at 0.0, `pick_with_replacement(k)` returns `[A] * k` for every
`k`. -/
theorem claim_C6_uniform_fast_path {α : Type}
    (pop : List (WeightedChoice α)) (rng : ℕ → ℚ) (k : ℕ)
    (hempty : is_empty pop = false) (huni : is_uniform pop = true)
    (hr : ∀ m, 0 ≤ rng m ∧ rng m < 1) :
    (∃ l, pick_with_replacement pop rng k = some l ∧ l.length = k ∧
      ∀ j : ℕ, j < k →
        l.get? j = (return_values pop).get? (⌊rng j * (pop.length : ℚ)⌋).toNat) ∧
    (∀ m : ℕ,
      pick_with_replacement
        ([⟨0, (1 : ℚ)⟩, ⟨1, 1⟩, ⟨2, 1⟩] : List (WeightedChoice ℕ))
        (fun _ => 0) m = some (List.replicate m 0)) := by
  constructor
  · have hne : pop ≠ [] := by
      intro h
      rw [h] at hempty
      simp [is_empty, total_weight, weights] at hempty
    have hlen : 0 < pop.length := List.length_pos.2 hne
    have hrv : (return_values pop).length = pop.length := by simp [return_values]
    have hfloor : ∀ j : ℕ, (0 : ℤ) ≤ ⌊rng j * (pop.length : ℚ)⌋ := by
      intro j
      apply Int.floor_nonneg.2
      exact mul_nonneg (hr j).1 (by positivity)
    have hsome : ∀ j ∈ List.range k,
        (pyGet (return_values pop) ⌊rng j * (pop.length : ℚ)⌋).isSome := by
      intro j _
      have h1 : ⌊rng j * (pop.length : ℚ)⌋ < (pop.length : ℤ) := by
        apply Int.floor_lt.2
        push_cast
        calc rng j * (pop.length : ℚ) < 1 * pop.length := by
              apply mul_lt_mul_of_pos_right (hr j).2
              exact_mod_cast hlen
          _ = pop.length := one_mul _
      rw [← Int.toNat_of_nonneg (hfloor j), pyGet_nat]
      have hin : ⌊rng j * (pop.length : ℚ)⌋.toNat < (return_values pop).length := by
        rw [hrv]
        omega
      simp [List.getElem?_eq_getElem hin]
    obtain ⟨l, hl, hlen', hget⟩ := pickList_spec _ (List.range k) hsome
    refine ⟨l, ?_, by simpa using hlen', ?_⟩
    · simp only [pick_with_replacement, hempty, huni, Bool.false_eq_true, if_false,
        if_true]
      exact hl
    · intro j hj
      have hj' : j < (List.range k).length := by simpa using hj
      have := hget j hj'
      simp only [List.get_eq_getElem, List.getElem_range] at this
      rw [this, ← Int.toNat_of_nonneg (hfloor j), pyGet_nat, Int.toNat_natCast]
  · intro m
    have he : is_empty ([⟨0, (1 : ℚ)⟩, ⟨1, 1⟩, ⟨2, 1⟩] : List (WeightedChoice ℕ))
        = false := by
      simp only [is_empty, decide_eq_false_iff_not, total_weight, weights]
      norm_num
    have hu : is_uniform ([⟨0, (1 : ℚ)⟩, ⟨1, 1⟩, ⟨2, 1⟩] : List (WeightedChoice ℕ))
        = true := by
      simp [is_uniform, uniformOf, weights]
    simp only [pick_with_replacement, he, hu, Bool.false_eq_true, if_false, if_true]
    rw [pickList_congr _ (fun _ => some 0) ?_ (List.range m), pickList_const,
      List.length_range]
    intro j
    norm_num [return_values, pyGet]

theorem claim_C6_uniform_fast_path_witness :
    (is_empty ([⟨0, (1 : ℚ)⟩, ⟨1, 1⟩, ⟨2, 1⟩] : List (WeightedChoice ℕ)) = false ∧
      is_uniform ([⟨0, (1 : ℚ)⟩, ⟨1, 1⟩, ⟨2, 1⟩] : List (WeightedChoice ℕ)) = true ∧
      (∀ m : ℕ, 0 ≤ (fun _ : ℕ => (0 : ℚ)) m ∧ (fun _ : ℕ => (0 : ℚ)) m < 1)) ∧
    (∃ l, pick_with_replacement
        ([⟨0, (1 : ℚ)⟩, ⟨1, 1⟩, ⟨2, 1⟩] : List (WeightedChoice ℕ)) (fun _ => 0) 2
        = some l ∧ l.length = 2 ∧
      ∀ j : ℕ, j < 2 →
        l.get? j = (return_values
          ([⟨0, (1 : ℚ)⟩, ⟨1, 1⟩, ⟨2, 1⟩] : List (WeightedChoice ℕ))).get?
            (⌊(fun _ : ℕ => (0 : ℚ)) j *
              ((([⟨0, (1 : ℚ)⟩, ⟨1, 1⟩, ⟨2, 1⟩] : List (WeightedChoice ℕ)).length : ℚ))⌋).toNat) := by
  have he : is_empty ([⟨0, (1 : ℚ)⟩, ⟨1, 1⟩, ⟨2, 1⟩] : List (WeightedChoice ℕ))
      = false := by
    simp only [is_empty, decide_eq_false_iff_not, total_weight, weights]
    norm_num
  have hu : is_uniform ([⟨0, (1 : ℚ)⟩, ⟨1, 1⟩, ⟨2, 1⟩] : List (WeightedChoice ℕ))
      = true := by
    simp [is_uniform, uniformOf, weights]
  have hrng : ∀ m : ℕ, 0 ≤ (fun _ : ℕ => (0 : ℚ)) m ∧ (fun _ : ℕ => (0 : ℚ)) m < 1 := by
    intro m
    norm_num
  exact ⟨⟨he, hu, hrng⟩,
    (claim_C6_uniform_fast_path
      ([⟨0, (1 : ℚ)⟩, ⟨1, 1⟩, ⟨2, 1⟩] : List (WeightedChoice ℕ)) (fun _ => 0) 2
      he hu hrng).1⟩

end RandomChoices
